import Mathlib

/-!
Verification development for the Chinese comprehension checker
(`script.py`): the normalizer, the DP segmenter, the content filter and
the comprehension scorer, embedded shallowly over `List Char` texts.
-/

namespace ChineseChecker

/-- Tokens and texts are ordered runs of Unicode code points. -/
abbrev Token := List Char

/-! ### Character classes (Python `str` semantics) -/

/-- Whitespace code points recognised by Python's `\s` / `str.strip()`
(the `str.isspace` set): ASCII whitespace, the C1 separators, NBSP,
OGHAM SPACE MARK, the U+2000–U+200A spaces, LINE/PARAGRAPH SEPARATOR,
NARROW NBSP, MEDIUM MATHEMATICAL SPACE and IDEOGRAPHIC SPACE. -/
def pySpace (c : Char) : Bool :=
  c.toNat ∈ [0x20, 0x9, 0xA, 0xB, 0xC, 0xD, 0x1C, 0x1D, 0x1E, 0x1F,
    0x85, 0xA0, 0x1680,
    0x2000, 0x2001, 0x2002, 0x2003, 0x2004, 0x2005, 0x2006, 0x2007,
    0x2008, 0x2009, 0x200A, 0x2028, 0x2029, 0x202F, 0x205F, 0x3000]

/-- Digit code points in the sense of Python's `str.isdigit`
(Numeric_Type=Decimal or Numeric_Type=Digit), restricted to the
fragment relevant here: ASCII digits, fullwidth digits, and the
superscript/subscript digits (which satisfy `str.isdigit` although they
are not decimal digits). -/
def pyIsDigit (c : Char) : Bool :=
  (0x30 ≤ c.toNat && c.toNat ≤ 0x39) ||
  (0xFF10 ≤ c.toNat && c.toNat ≤ 0xFF19) ||
  c.toNat ∈ [0xB2, 0xB3, 0xB9, 0x2070] ||
  (0x2074 ≤ c.toNat && c.toNat ≤ 0x2079) ||
  (0x2080 ≤ c.toNat && c.toNat ≤ 0x2089)

/-- Decimal-digit code points (Unicode general category Nd fragment:
ASCII and fullwidth digits).  This definition follows the spec's words
"composed entirely of decimal digits"; superscript digits such as
U+00B2 are *not* decimal digits. -/
def specDecimalDigit (c : Char) : Bool :=
  (0x30 ≤ c.toNat && c.toNat ≤ 0x39) ||
  (0xFF10 ≤ c.toNat && c.toNat ≤ 0xFF19)

/-- CJK unified ideographs (the main block): "pure-Chinese" characters. -/
def isCJK (c : Char) : Bool :=
  0x4E00 ≤ c.toNat && c.toNat ≤ 0x9FFF

/-- Combining marks (Unicode general category Mn), restricted to the
finite fragment used in this development: the combining accents and the
kana voicing marks. -/
def isMn (c : Char) : Bool :=
  c.toNat ∈ [0x300, 0x301, 0x302, 0x303, 0x308, 0x30C, 0x3099, 0x309A]

/-- Finite fragment of the Unicode NFKD decomposition used by
`text_clean_up`: characters outside the listed cases decompose to
themselves (this is exact for ASCII and for CJK unified ideographs,
which have no compatibility decompositions).  The listed cases are
NO-BREAK SPACE → SPACE, the precomposed Latin vowels é/à → base letter
plus combining accent, KATAKANA-HIRAGANA VOICED/SEMI-VOICED SOUND MARK
→ SPACE plus combining kana mark, and SUPERSCRIPT TWO → DIGIT TWO. -/
def nfkdChar (c : Char) : List Char :=
  if c = Char.ofNat 0xA0 then [' ']
  else if c = Char.ofNat 0xE9 then ['e', Char.ofNat 0x301]
  else if c = Char.ofNat 0xE0 then ['a', Char.ofNat 0x300]
  else if c = Char.ofNat 0x309B then [' ', Char.ofNat 0x3099]
  else if c = Char.ofNat 0x309C then [' ', Char.ofNat 0x309A]
  else if c = Char.ofNat 0xB2 then ['2']
  else [c]

/-- Embedding of `text_clean_up` (`script.py` lines 90–111): remove all
whitespace, apply NFKD, then drop combining marks (category Mn). -/
def text_clean_up (text : Token) : Token :=
  let text_no_whitespace := text.filter (fun c => !pySpace c)
  let normalized := text_no_whitespace.flatMap nfkdChar
  normalized.filter (fun c => !isMn c)

/-! ### The punctuation set (`PUNCTUATION_CHARS`, `script.py` lines 31–34) -/

/-- Code points of the `PUNCTUATION_CHARS` set from `script.py` (93
distinct code points): ASCII `,.:()!@[]+/\!?;|.-*'"`, middle dot,
box-drawing dash, the fullwidth ASCII variants U+FF01–U+FF5E,
halfwidth CJK forms U+FF5F–U+FF64, CJK symbols and brackets
U+3001–U+303F, the dashes U+2013/U+2014, the quote marks
U+201B/U+201E/U+201F, ellipsis, hyphenation point, and the small-form
variants U+FE4F/U+FE54.  Note the apparent curly quotes in the middle
of the source literal are ASCII quote characters — delimiters of the
implicitly concatenated string literals or plain content — so
U+2018/U+2019/U+201C/U+201D are not members of the set. -/
def PUNCTUATION_CHARS : List Char :=
  [0x2C, 0x2E, 0x3A, 0x28, 0x29, 0x21, 0x40, 0x5B, 0x5D, 0x2B, 0x2F, 0x5C,
   0xFF01, 0x3F, 0xFF1F, 0xFF61, 0x3002,
   0xFF02, 0xFF03, 0xFF04, 0xFF05, 0xFF06, 0xFF07, 0xFF08, 0xFF09,
   0xFF0A, 0xFF0B, 0xFF0C, 0xFF0D, 0xFF0F, 0xFF1A, 0xFF1B, 0xFF1C,
   0xFF1D, 0xFF1E, 0xFF20, 0xFF3B, 0xFF3C, 0xFF3D, 0xFF3E, 0xFF3F,
   0xFF40, 0xFF5B, 0xFF5C, 0xFF5D, 0xFF5E, 0xFF5F, 0xFF60, 0xFF62,
   0xFF63, 0xFF64,
   0x3001, 0x3003, 0x300A, 0x300B, 0x300C, 0x300D, 0x300E, 0x300F,
   0x3010, 0x3011, 0x3014, 0x3015, 0x3016, 0x3017, 0x3018, 0x3019,
   0x301A, 0x301B, 0x301C, 0x301D, 0x301E, 0x301F, 0x3030, 0x303E,
   0x303F,
   0x2013, 0x2014, 0x201B, 0x201E,
   0x201F, 0x2026, 0x2027, 0xFE4F, 0x3B, 0xFE54, 0x7C, 0x2D, 0xB7,
   0x2A, 0x2500, 0x27, 0x22].map Char.ofNat

/-! ### DP segmenter (`dp_tokenize`, `script.py` lines 232–305) -/

/-- One entry of the DP state table: cumulative score (`none` models
Python's `float('-inf')` sentinel), the token sequence tagged
known/unknown, and the start of a still-open unexplained run (`none`
models Python's `-1`). -/
structure DPEntry where
  score : Option Nat
  seg : List (Token × Bool)
  ustart : Option Nat
deriving DecidableEq

/-- The unreachable initial entry `(float('-inf'), [], -1)`. -/
def DPEntry.init : DPEntry := ⟨none, [], none⟩

/-- Maximum known-word length considered by the DP (`MAX_WORD_LENGTH`). -/
def MAX_WORD_LENGTH : Nat := 4

/-- Substring `text[j:i]` of Python slicing. -/
def sliceStr (text : Token) (j i : Nat) : Token :=
  (text.drop j).take (i - j)

/-- Strict comparison of scores where `none` is `-inf`:
`sGt a b` means `a > b`. -/
def sGt : Option Nat → Option Nat → Bool
  | none, _ => false
  | some _, none => true
  | some a, some b => decide (b < a)

/-- Resolve the open unexplained run of entry `e` up to position `j` by
invoking the fallback segmenter, appending its tokens marked unknown
(the `if prev_unknown_start != -1` block of `dp_tokenize`). -/
def resolveRun (fallback : Token → List Token) (text : Token)
    (e : DPEntry) (j : Nat) : List (Token × Bool) :=
  match e.ustart with
  | some s => e.seg ++ (fallback (sliceStr text s j)).map (fun w => (w, false))
  | none => e.seg

/-- One iteration of the inner loop of `dp_tokenize`: try the known-word
candidate `text[j:i]`, replacing the current best entry for position `i`
only when the candidate score is strictly greater. -/
def innerStep (known : Token → Bool) (fallback : Token → List Token)
    (text : Token) (dp : List DPEntry) (i : Nat)
    (cur : DPEntry) (j : Nat) : DPEntry :=
  let word := sliceStr text j i
  if known word then
    let prev := dp.getD j DPEntry.init
    let new_seg := resolveRun fallback text prev j ++ [(word, true)]
    let new_score := prev.score.map (fun s => s + word.length)
    if sGt new_score cur.score then ⟨new_score, new_seg, none⟩ else cur
  else cur

/-- Embedding of Python's `max(range(i), key=f)`: the smallest index in
`[0, i)` attaining the maximum key (Python's `max` keeps the first
maximal element). -/
def argmaxFirst (f : Nat → Option Nat) (i : Nat) : Nat :=
  (List.range i).foldl (fun best x => if sGt (f x) (f best) then x else best) 0

/-- One iteration of the outer loop of `dp_tokenize` at position `i`:
scan known-word candidates from the smallest start `j` (longest word
first); if position `i` is still unreachable, extend the unexplained
run from the best previous position. -/
def outerStep (known : Token → Bool) (fallback : Token → List Token)
    (text : Token) (dp : List DPEntry) (i : Nat) : List DPEntry :=
  let jmin := i - MAX_WORD_LENGTH
  let cand := (List.range' jmin (i - jmin)).foldl
    (innerStep known fallback text dp i) (dp.getD i DPEntry.init)
  let entry :=
    if cand.score = none then
      let best_prev := argmaxFirst (fun x => (dp.getD x DPEntry.init).score) i
      let prev := dp.getD best_prev DPEntry.init
      ⟨prev.score, prev.seg, some (prev.ustart.getD best_prev)⟩
    else cand
  dp.set i entry

/-- Embedding of `dp_tokenize`: DP over positions `1..n`, then resolve a
trailing unexplained run and strip the known/unknown tags.  The fallback
segmenter parameter stands for `jieba.cut`. -/
def dp_tokenize (known : Token → Bool) (fallback : Token → List Token)
    (text : Token) : List Token :=
  if text.isEmpty then []
  else
    let n := text.length
    let dp0 : List DPEntry := ⟨some 0, [], none⟩ :: List.replicate n DPEntry.init
    let dpF := (List.range' 1 n).foldl (outerStep known fallback text) dp0
    let fin := dpF.getD n DPEntry.init
    let final_seg := resolveRun fallback text fin n
    final_seg.map Prod.fst

/-! ### Content filter (`should_filter_word` / `filter_content`) -/

/-- Embedding of `should_filter_word` (`script.py` lines 308–340). -/
def should_filter_word (word : Token) : Bool :=
  if word.all pySpace then true
  else if !word.isEmpty && word.all pyIsDigit then true
  else if word.all (fun c => decide (c ∈ PUNCTUATION_CHARS)) then true
  else if word.any (fun c => c.toNat ≤ 0x7F && (c.isAlpha || c.isDigit)) then true
  else false

/-- Embedding of `filter_content` (`script.py` lines 343–353). -/
def filter_content (words : List Token) : List Token :=
  words.filter (fun word => !should_filter_word word)

/-! ### Comprehension scorer -/

/-- Embedding of `is_word_known` (`script.py` lines 356–375): a word is
known when it is a member of the known set, or when every one of its
characters is. -/
def is_word_known (word : Token) (known_words : Token → Bool) : Bool :=
  if known_words word then true
  else word.all (fun c => known_words [c])

/-- Modelled from the spec: the Exclusion Set consulted by the
Comprehension Scorer is absent from `src/script.py` (the variant of the
script imported by `src/app.py`, which manages a list of compound words
that must not count as known, is not under `src/`).  Following the
spec's words, `isKnown(token) = (token ∈ KnownVocabulary OR every
character of token ∈ KnownVocabulary) AND token ∉ ExclusionSet`, where
the first disjunction is the source's `is_word_known`. -/
def isKnownWithExclusions (word : Token) (known_words excluded : Token → Bool) : Bool :=
  is_word_known word known_words && !excluded word

/-- Walk a list keeping each element not yet seen, in order: the key
insertion of Python's insertion-ordered `Counter` dict. -/
def uniqueKeysGo (seen : List Token) : List Token → List Token
  | [] => []
  | w :: ws =>
    if seen.contains w then uniqueKeysGo seen ws
    else w :: uniqueKeysGo (w :: seen) ws

/-- Distinct elements of a list in first-occurrence order: the key
sequence of Python's insertion-ordered `Counter(filtered_content)`. -/
def uniqueKeys (ws : List Token) : List Token :=
  uniqueKeysGo [] ws

/-- The `(hanzi, count)` items of `Counter(filtered_content)` in
first-occurrence order. -/
def counterItems (ws : List Token) : List (Token × Nat) :=
  (uniqueKeys ws).map (fun w => (w, ws.count w))

/-- Stable descending insertion by count: models one element of
Python's stable `list.sort(key=lambda x: x[1], reverse=True)`. -/
def insertDesc (p : Token × Nat) : List (Token × Nat) → List (Token × Nat)
  | [] => [p]
  | q :: qs => if q.2 ≤ p.2 then p :: q :: qs else q :: insertDesc p qs

/-- Stable sort by count, descending (equal counts keep their original
relative order), as Python's `sort(key=..., reverse=True)`. -/
def sortDescByCount (l : List (Token × Nat)) : List (Token × Nat) :=
  l.foldr insertDesc []

/-- Embedding of `calculate_comprehension_stats` (`script.py` lines
378–409): count frequencies in first-occurrence order, accumulate the
known count and the unknown `(word, count)` list, and sort the unknown
list by frequency descending (stable). -/
def calculate_comprehension_stats (filtered : List Token)
    (known_words : Token → Bool) : Nat × Nat × Nat × List (Token × Nat) :=
  let counted_target := counterItems filtered
  let total_words := filtered.length
  let unique_words := counted_target.length
  let acc := counted_target.foldl
    (fun acc p =>
      if is_word_known p.1 known_words then (acc.1 + p.2, acc.2)
      else (acc.1, acc.2 ++ [p]))
    ((0 : Nat), ([] : List (Token × Nat)))
  (total_words, unique_words, acc.1, sortDescByCount acc.2)

/-! ### Result formatting and the whole pipeline -/

/-- Outcome of an analysis: the two diagnosable error conditions, or a
report carrying the counts, the comprehension percentage and the ranked
unknown list.  This abstracts the string rendering of `format_results`
and `comprehension_checker` (pinyin annotation and pretty-printing are
external collaborators); the constructors correspond to the distinct
strings returned by the source. -/
inductive AnalysisOutput where
  | emptyInput : AnalysisOutput
  | noAnalyzableContent : AnalysisOutput
  | report : Nat → Nat → ℚ → List (Token × Nat) → AnalysisOutput
deriving DecidableEq

/-- Embedding of `format_results` (`script.py` lines 439–471): the
`total_words == 0` branch returns the "No Chinese text found" error
(`noAnalyzableContent`); otherwise the comprehension percentage
`known_count / total_words * 100` is computed and reported. -/
def format_results (total_words unique_words known_count : Nat)
    (unknown_words : List (Token × Nat)) : AnalysisOutput :=
  if total_words = 0 then .noAnalyzableContent
  else .report total_words unique_words
    ((known_count : ℚ) / (total_words : ℚ) * 100) unknown_words

/-- Embedding of `comprehension_checker` (`script.py` lines 490–541)
together with `get_clipboard_text`: an empty supplied text raises the
"Clipboard is empty" error (`emptyInput`); otherwise the text is
normalized, segmented, filtered, scored and formatted.  Loading the
known-word file is abstracted into the `known` parameter. -/
def comprehension_checker (known : Token → Bool)
    (fallback : Token → List Token) (text : Token) : AnalysisOutput :=
  if text = [] then .emptyInput
  else
    match calculate_comprehension_stats
        (filter_content (dp_tokenize known fallback (text_clean_up text)))
        known with
    | (total_words, unique_words, known_count, unknown_words) =>
      format_results total_words unique_words known_count unknown_words

/-- The known-word set of the spec's longest-tie-break example:
`{"国", "中国", "中国人"}`. -/
def exampleKnownWords : Token → Bool := fun w =>
  w == "国".toList || w == "中国".toList || w == "中国人".toList

/-! ### Helper lemmas on scores -/

theorem sGt_irrefl (a : Option Nat) : sGt a a = false := by
  cases a <;> simp [sGt]

theorem sGt_trans {a b c : Option Nat} (h1 : sGt a b = true) (h2 : sGt b c = true) :
    sGt a c = true := by
  cases a <;> cases b <;> cases c <;> simp_all [sGt]
  omega

theorem sGt_of_sGt_of_not_sGt {a b c : Option Nat} (h1 : sGt a b = true)
    (h2 : sGt c b = false) : sGt a c = true := by
  cases a <;> cases b <;> cases c <;> simp_all [sGt]
  omega

/-! ### Helper lemmas on `argmaxFirst` -/

theorem argmaxFirst_zero (f : Nat → Option Nat) : argmaxFirst f 0 = 0 := rfl

theorem argmaxFirst_succ (f : Nat → Option Nat) (i : Nat) :
    argmaxFirst f (i + 1) =
      if sGt (f i) (f (argmaxFirst f i)) then i else argmaxFirst f i := by
  unfold argmaxFirst
  rw [List.range_succ, List.foldl_append]
  rfl

theorem argmaxFirst_lt (f : Nat → Option Nat) {i : Nat} (h : 0 < i) :
    argmaxFirst f i < i := by
  induction i with
  | zero => omega
  | succ n ih =>
    rw [argmaxFirst_succ]
    rcases Nat.eq_zero_or_pos n with hn | hn
    · subst hn
      split <;> simp [argmaxFirst_zero]
    · have := ih hn
      split <;> omega

theorem argmaxFirst_max (f : Nat → Option Nat) (i : Nat) :
    ∀ y, y < i → sGt (f y) (f (argmaxFirst f i)) = false := by
  induction i with
  | zero => omega
  | succ n ih =>
    intro y hy
    rw [argmaxFirst_succ]
    split
    case isTrue hgt =>
      rcases Nat.lt_succ_iff_lt_or_eq.mp hy with hlt | heq
      · have hle := ih y hlt
        by_contra hne
        have : sGt (f y) (f n) = true := by
          revert hne
          cases hsg : sGt (f y) (f n) <;> simp
        exact absurd (sGt_trans this hgt) (by simp [hle])
      · subst heq
        exact sGt_irrefl _
    case isFalse hng =>
      rcases Nat.lt_succ_iff_lt_or_eq.mp hy with hlt | heq
      · exact ih y hlt
      · subst heq
        revert hng
        cases hsg : sGt (f y) (f (argmaxFirst f y)) <;> simp

theorem argmaxFirst_first (f : Nat → Option Nat) (i : Nat) :
    ∀ y, y < argmaxFirst f i → sGt (f (argmaxFirst f i)) (f y) = true := by
  induction i with
  | zero => simp [argmaxFirst_zero]
  | succ n ih =>
    intro y hy
    rw [argmaxFirst_succ] at hy ⊢
    split
    case isTrue hgt =>
      rw [if_pos hgt] at hy
      have hmax := argmaxFirst_max f n y hy
      exact sGt_of_sGt_of_not_sGt hgt hmax
    case isFalse hng =>
      rw [if_neg hng] at hy
      exact ih y hy

/-! ### Helper lemmas on the normalizer -/

/-- C1: for every token and every Exclusion Set, the scorer's
classification satisfies `isKnown(token) = (token ∈ known-vocabulary OR
every character of token ∈ known-vocabulary) AND token ∉ exclusions`;
in particular a token present in the Exclusion Set is classified
unknown even when all of its characters are individually known. -/
theorem c1_scorer_exclusion (w : Token) (k e : Token → Bool) :
    (isKnownWithExclusions w k e = true ↔
      ((k w = true ∨ ∀ c ∈ w, k [c] = true) ∧ e w = false)) ∧
    (e w = true → isKnownWithExclusions w k e = false) := by
  constructor
  · unfold isKnownWithExclusions is_word_known
    split_ifs with hk <;>
      simp [hk, List.all_eq_true]
  · intro he
    simp [isKnownWithExclusions, he]

/-- C1 witness: token 中国 with both characters known but the token
excluded is classified unknown. -/
theorem c1_witness :
    (fun v : Token => v == "中国".toList) ("中国".toList) = true ∧
    isKnownWithExclusions ("中国".toList)
      (fun v => v == "中".toList || v == "国".toList)
      (fun v => v == "中国".toList) = false :=
  ⟨by decide,
    (c1_scorer_exclusion ("中国".toList)
      (fun v => v == "中".toList || v == "国".toList)
      (fun v => v == "中国".toList)).2 (by decide)⟩

/-! ### Claim C7 (EmptyInput vs NoAnalyzableContent) -/

/-- C7, counterexample: a text consisting of a single space is nonempty
but becomes empty after normalization; the analysis reports the
no-analyzable-content error, not the empty-input error, contrary to the
claim that such a text fails with EmptyInput. -/
theorem c7_whitespace_not_empty_input :
    comprehension_checker (fun _ => false) (fun s => [s]) [' ']
        = AnalysisOutput.noAnalyzableContent ∧
    AnalysisOutput.noAnalyzableContent ≠ AnalysisOutput.emptyInput := by
  exact ⟨by decide, by decide⟩

/-- C7, amended: an empty supplied text fails with the EmptyInput
error; a nonempty text that becomes empty after normalization instead
yields the NoAnalyzableContent error; the two error conditions are
distinct, so they produce different diagnostics. -/
theorem c7_error_distinction :
    (∀ (k : Token → Bool) (fb : Token → List Token),
      comprehension_checker k fb [] = AnalysisOutput.emptyInput) ∧
    (∀ (k : Token → Bool) (fb : Token → List Token) (t : Token), t ≠ [] →
      text_clean_up t = [] →
      comprehension_checker k fb t = AnalysisOutput.noAnalyzableContent) ∧
    AnalysisOutput.emptyInput ≠ AnalysisOutput.noAnalyzableContent := by
  refine ⟨fun k fb => rfl, fun k fb t ht hclean => ?_, by decide⟩
  unfold comprehension_checker
  rw [if_neg ht, hclean]
  rfl

/-- C7 witness: the single-space text is nonempty, normalizes to
empty, and yields the no-analyzable-content diagnostic. -/
theorem c7_witness :
    (([' '] : Token) ≠ [] ∧ text_clean_up [' '] = []) ∧
    comprehension_checker (fun _ => true) (fun s => [s]) [' ']
      = AnalysisOutput.noAnalyzableContent :=
  ⟨⟨by decide, by decide⟩,
    c7_error_distinction.2.1 (fun _ => true) (fun s => [s]) [' ']
      (by decide) (by decide)⟩

/-! ### Claim C6 (zero-token error) -/

/-- C6: whenever the filtered token sequence is empty, the analysis
reports the no-analyzable-content error instead of computing a
comprehension ratio: the scorer returns zero counts on an empty
sequence, and the formatter produces the error exactly when the total
count is zero (so the division `known_count / total_words` is never
evaluated at zero). -/
theorem c6_zero_token_error (k : Token → Bool) (fb : Token → List Token)
    (text : Token) (total unique kc : Nat) (uw : List (Token × Nat))
    (ht : text ≠ [])
    (hfil : filter_content (dp_tokenize k fb (text_clean_up text)) = []) :
    comprehension_checker k fb text = AnalysisOutput.noAnalyzableContent ∧
    calculate_comprehension_stats [] k = (0, 0, 0, []) ∧
    (format_results total unique kc uw = AnalysisOutput.noAnalyzableContent
      ↔ total = 0) := by
  refine ⟨?_, rfl, ?_⟩
  · unfold comprehension_checker
    rw [if_neg ht, hfil]
    rfl
  · unfold format_results
    split_ifs with h <;> simp [h]

/-- C6 witness: a text of one ideographic full stop normalizes to a
single punctuation token, which the filter removes. -/
theorem c6_witness :
    ((([Char.ofNat 0x3002] : Token) ≠ []) ∧
      filter_content (dp_tokenize (fun _ => false) (fun s => [s])
        (text_clean_up [Char.ofNat 0x3002])) = []) ∧
    comprehension_checker (fun _ => false) (fun s => [s]) [Char.ofNat 0x3002]
      = AnalysisOutput.noAnalyzableContent ∧
    calculate_comprehension_stats [] (fun _ => false) = (0, 0, 0, []) ∧
    (format_results 0 0 0 [] = AnalysisOutput.noAnalyzableContent ↔ (0 : Nat) = 0) :=
  ⟨⟨by decide, by decide⟩,
    c6_zero_token_error (fun _ => false) (fun s => [s]) [Char.ofNat 0x3002]
      0 0 0 [] (by decide) (by decide)⟩

/-! ### Claim C3 (longest-known-word tie-break) -/

/-- C3: candidates are scanned from the smallest start `j` (so the
longest known word ending at `i` comes first), and a later candidate
replaces the recorded one only on a strictly greater score: once the
candidate at `j1` has been scanned, an equal-scoring candidate at `j2`
leaves the entry unchanged, so among equal-scoring alternatives the
longest known word wins.  Concretely, with known words
`{国, 中国, 中国人}` the input 中国人民 is segmented starting with
中国人, not with single characters. -/
theorem c3_longest_tie_break (known : Token → Bool)
    (fallback : Token → List Token) (text : Token) (dp : List DPEntry)
    (i : Nat) (cur : DPEntry) (j1 j2 : Nat)
    (hk1 : known (sliceStr text j1 i) = true)
    (heq : ((dp.getD j1 DPEntry.init).score).map
        (fun s => s + (sliceStr text j1 i).length)
      = ((dp.getD j2 DPEntry.init).score).map
        (fun s => s + (sliceStr text j2 i).length)) :
    innerStep known fallback text dp i (innerStep known fallback text dp i cur j1) j2
      = innerStep known fallback text dp i cur j1 ∧
    dp_tokenize exampleKnownWords (fun s => [s]) ("中国人民".toList)
      = ["中国人".toList, "民".toList] := by
  constructor
  · simp only [innerStep, hk1, if_true]
    rw [← heq]
    by_cases hs : sGt (((dp.getD j1 DPEntry.init).score).map
        (fun s => s + (sliceStr text j1 i).length)) cur.score = true
    · rw [if_pos hs]
      split
      · rw [if_neg (by simp [sGt_irrefl])]
      · rfl
    · rw [if_neg hs]
      split <;> simp [hs]
  · decide

/-- C3 witness: a trivial one-candidate instantiation of the
tie-break property. -/
theorem c3_witness :
    ((fun w : Token => w == ['a']) (sliceStr ['a'] 0 1) = true ∧
      ((([⟨some 0, [], none⟩] : List DPEntry).getD 0 DPEntry.init).score).map
        (fun s => s + (sliceStr ['a'] 0 1).length)
      = ((([⟨some 0, [], none⟩] : List DPEntry).getD 0 DPEntry.init).score).map
        (fun s => s + (sliceStr ['a'] 0 1).length)) ∧
    (innerStep (fun w => w == ['a']) (fun s => [s]) ['a'] [⟨some 0, [], none⟩] 1
        (innerStep (fun w => w == ['a']) (fun s => [s]) ['a'] [⟨some 0, [], none⟩] 1
          DPEntry.init 0) 0
      = innerStep (fun w => w == ['a']) (fun s => [s]) ['a'] [⟨some 0, [], none⟩] 1
          DPEntry.init 0 ∧
      dp_tokenize exampleKnownWords (fun s => [s]) ("中国人民".toList)
        = ["中国人".toList, "民".toList]) :=
  ⟨⟨by decide, rfl⟩,
    c3_longest_tie_break (fun w => w == ['a']) (fun s => [s]) ['a']
      [⟨some 0, [], none⟩] 1 DPEntry.init 0 0 (by decide) rfl⟩

/-! ### Claim C4 (unexplained-run extension) -/

/-- Scanning a list of candidate starts none of which is a known word
leaves the entry unchanged. -/
theorem foldl_innerStep_id (known : Token → Bool)
    (fallback : Token → List Token) (text : Token) (dp : List DPEntry)
    (i : Nat) (cur : DPEntry) (l : List Nat)
    (h : ∀ j ∈ l, known (sliceStr text j i) = false) :
    l.foldl (innerStep known fallback text dp i) cur = cur := by
  induction l generalizing cur with
  | nil => rfl
  | cons j js ih =>
    rw [List.foldl_cons,
      show innerStep known fallback text dp i cur j = cur from by
        simp [innerStep, h j (List.mem_cons_self _ _)]]
    exact ih cur (fun j' hj' => h j' (List.mem_cons_of_mem _ hj'))

/-- C4: when no known word ends at position `i`, the DP entry for `i`
is set from the predecessor `x` in `[0, i)` with the maximum score
(first in scan order on ties, hence the smallest such `x`), inheriting
its score and token sequence, with the open-run start set to `x` if the
predecessor had no open run, or inherited unchanged if it did. -/
theorem c4_unexplained_run_extension (known : Token → Bool)
    (fallback : Token → List Token) (text : Token) (dp : List DPEntry)
    (i x : Nat) (hi : 0 < i) (hlen : i < dp.length)
    (hinit : dp.getD i DPEntry.init = DPEntry.init)
    (hnone : ∀ j, j < i → known (sliceStr text j i) = false)
    (hx : x = argmaxFirst (fun y => (dp.getD y DPEntry.init).score) i) :
    x < i ∧
    (∀ y, y < i →
      sGt (dp.getD y DPEntry.init).score (dp.getD x DPEntry.init).score = false) ∧
    (∀ y, y < x →
      sGt (dp.getD x DPEntry.init).score (dp.getD y DPEntry.init).score = true) ∧
    (outerStep known fallback text dp i).getD i DPEntry.init =
      ⟨(dp.getD x DPEntry.init).score, (dp.getD x DPEntry.init).seg,
        some ((dp.getD x DPEntry.init).ustart.getD x)⟩ := by
  subst hx
  refine ⟨argmaxFirst_lt _ hi,
    fun y hy => argmaxFirst_max (fun z => (dp.getD z DPEntry.init).score) i y hy,
    fun y hy => argmaxFirst_first (fun z => (dp.getD z DPEntry.init).score) i y hy,
    ?_⟩
  simp only [outerStep]
  rw [foldl_innerStep_id known fallback text dp i _ _ (fun j hj => by
    apply hnone
    have := List.mem_range'_1.mp hj
    omega)]
  rw [hinit]
  rw [if_pos (show DPEntry.init.score = none by rfl)]
  simp [List.getD, List.getElem?_set_self, hlen]

/-- C4 witness: a two-entry table with no known word ending at
position 1. -/
theorem c4_witness :
    ((0 : Nat) < 1 ∧ (1 : Nat) < ([⟨some 0, [], none⟩, DPEntry.init] : List DPEntry).length ∧
      ([⟨some 0, [], none⟩, DPEntry.init] : List DPEntry).getD 1 DPEntry.init = DPEntry.init ∧
      (∀ j, j < 1 → (fun _ : Token => false) (sliceStr ['a'] j 1) = false) ∧
      (0 : Nat) = argmaxFirst
        (fun y => (([⟨some 0, [], none⟩, DPEntry.init] : List DPEntry).getD y DPEntry.init).score) 1) ∧
    ((0 : Nat) < 1 ∧
      (∀ y, y < 1 →
        sGt (([⟨some 0, [], none⟩, DPEntry.init] : List DPEntry).getD y DPEntry.init).score
          (([⟨some 0, [], none⟩, DPEntry.init] : List DPEntry).getD 0 DPEntry.init).score = false) ∧
      (∀ y, y < 0 →
        sGt (([⟨some 0, [], none⟩, DPEntry.init] : List DPEntry).getD 0 DPEntry.init).score
          (([⟨some 0, [], none⟩, DPEntry.init] : List DPEntry).getD y DPEntry.init).score = true) ∧
      (outerStep (fun _ => false) (fun s => [s]) ['a']
          [⟨some 0, [], none⟩, DPEntry.init] 1).getD 1 DPEntry.init =
        ⟨(([⟨some 0, [], none⟩, DPEntry.init] : List DPEntry).getD 0 DPEntry.init).score,
          (([⟨some 0, [], none⟩, DPEntry.init] : List DPEntry).getD 0 DPEntry.init).seg,
          some ((([⟨some 0, [], none⟩, DPEntry.init] : List DPEntry).getD 0 DPEntry.init).ustart.getD 0)⟩) :=
  ⟨⟨by decide, by decide, by decide, fun j hj => rfl, by decide⟩,
    c4_unexplained_run_extension (fun _ => false) (fun s => [s]) ['a']
      [⟨some 0, [], none⟩, DPEntry.init] 1 0 (by decide) (by decide) (by decide)
      (fun j hj => rfl) (by decide)⟩

/-! ### Claim C5 (content filter) -/

/-- No character of the punctuation set is a CJK unified ideograph. -/
theorem punct_not_cjk :
    ∀ c ∈ PUNCTUATION_CHARS, ¬(0x4E00 ≤ c.toNat ∧ c.toNat ≤ 0x9FFF) := by decide

/-- C5, counterexample: the token consisting of SUPERSCRIPT TWO
(U+00B2) is dropped by the filter (Python's `str.isdigit` accepts
superscript digits), yet it satisfies none of the four stated rules: it
is not whitespace, it is not composed of decimal digits, it is not
punctuation, and it contains no ASCII letter or digit.  So "drop iff
(a) ∨ (b) ∨ (c) ∨ (d)" fails with (b) read as "decimal digits". -/
theorem c5_superscript_counterexample :
    should_filter_word [Char.ofNat 0xB2] = true ∧
    ¬(([Char.ofNat 0xB2] : Token).all pySpace = true ∨
      (([Char.ofNat 0xB2] : Token) ≠ [] ∧
        ([Char.ofNat 0xB2] : Token).all specDecimalDigit = true) ∨
      ([Char.ofNat 0xB2] : Token).all (fun c => decide (c ∈ PUNCTUATION_CHARS)) = true ∨
      ([Char.ofNat 0xB2] : Token).any
        (fun c => c.toNat ≤ 0x7F && (c.isAlpha || c.isDigit)) = true) := by
  exact ⟨by decide, by decide⟩

/-- C5, amended: a token is dropped iff it is (a) empty or
all-whitespace, (b) nonempty and composed entirely of digit characters
in Python's `str.isdigit` sense (decimal digits together with
superscript/subscript digits), (c) composed entirely of characters of
the fixed punctuation set, or (d) contains at least one ASCII letter or
digit; the filter is order-preserving (its output is a sublist, so no
token is split or merged) with membership exactly characterized, and a
nonempty pure-Chinese token is never removed. -/
theorem c5_content_filter (w : Token) (ws : List Token)
    (hne : w ≠ []) (hcjk : ∀ c ∈ w, isCJK c = true) :
    (∀ v : Token, should_filter_word v = true ↔
      (v.all pySpace = true ∨
       (v ≠ [] ∧ v.all pyIsDigit = true) ∨
       v.all (fun c => decide (c ∈ PUNCTUATION_CHARS)) = true ∨
       v.any (fun c => c.toNat ≤ 0x7F && (c.isAlpha || c.isDigit)) = true)) ∧
    (filter_content ws).Sublist ws ∧
    (∀ v : Token, v ∈ filter_content ws ↔ v ∈ ws ∧ should_filter_word v = false) ∧
    should_filter_word w = false := by
  have hchars : ∀ c ∈ w, 0x4E00 ≤ c.toNat ∧ c.toNat ≤ 0x9FFF := by
    intro c hc
    have := hcjk c hc
    simpa [isCJK] using this
  obtain ⟨c0, hc0⟩ := List.exists_mem_of_ne_nil w hne
  refine ⟨?_, List.filter_sublist ws, ?_, ?_⟩
  · intro v
    unfold should_filter_word
    split_ifs with h1 h2 h3 h4 <;>
      simp_all [List.isEmpty_iff]
  · intro v
    simp [filter_content, List.mem_filter]
  · have hb0 := hchars c0 hc0
    unfold should_filter_word
    rw [if_neg (fun hall => by
      have := List.all_eq_true.mp hall c0 hc0
      simp [pySpace] at this
      omega)]
    rw [if_neg (fun hall => by
      have := List.all_eq_true.mp (Bool.and_elim_right hall) c0 hc0
      simp [pyIsDigit] at this
      omega)]
    rw [if_neg (fun hall => by
      have := List.all_eq_true.mp hall c0 hc0
      exact punct_not_cjk c0 (by simpa using this) hb0)]
    rw [if_neg (fun hany => by
      obtain ⟨c, hc, hcc⟩ := List.any_eq_true.mp hany
      have := hchars c hc
      simp at hcc
      omega)]

/-- C5 witness: the pure-Chinese single-character token 中 passes the
filter. -/
theorem c5_witness :
    ((['中'] : Token) ≠ [] ∧ (∀ c ∈ (['中'] : Token), isCJK c = true)) ∧
    ((∀ v : Token, should_filter_word v = true ↔
      (v.all pySpace = true ∨
       (v ≠ [] ∧ v.all pyIsDigit = true) ∨
       v.all (fun c => decide (c ∈ PUNCTUATION_CHARS)) = true ∨
       v.any (fun c => c.toNat ≤ 0x7F && (c.isAlpha || c.isDigit)) = true)) ∧
     (filter_content [(['中'] : Token)]).Sublist [(['中'] : Token)] ∧
     (∀ v : Token, v ∈ filter_content [(['中'] : Token)] ↔
        v ∈ [(['中'] : Token)] ∧ should_filter_word v = false) ∧
     should_filter_word ['中'] = false) :=
  ⟨⟨by decide, by decide⟩,
    c5_content_filter ['中'] [['中']] (by decide) (by decide)⟩

/-! ### Claim C2 (full coverage of the DP segmenter) -/

/-- Concatenation of the tokens of a tagged segment list. -/
def SegJoin (seg : List (Token × Bool)) : Token :=
  (seg.map Prod.fst).flatten

/-- Invariant of one finalized DP entry at position `i`: with no open
run its tokens concatenate to `text[0:i]`; with an open run starting at
`s ≤ i` they concatenate to `text[0:s]`. -/
def EntryInv (text : Token) (i : Nat) (e : DPEntry) : Prop :=
  (e.ustart = none → SegJoin e.seg = text.take i) ∧
  (∀ s, e.ustart = some s → s ≤ i ∧ SegJoin e.seg = text.take s)

/-- Invariant of the candidate entry threaded through the inner loop at
position `i`: still unreachable, or a closed segmentation of
`text[0:i]`. -/
def InnerInv (text : Token) (i : Nat) (e : DPEntry) : Prop :=
  e.score = none ∨ (e.ustart = none ∧ SegJoin e.seg = text.take i)

/-- Invariant of the DP table after the positions `0..m` have been
finalized. -/
def TableInv (text : Token) (dp : List DPEntry) (m : Nat) : Prop :=
  dp.length = text.length + 1 ∧
  (∀ k, k ≤ m → EntryInv text k (dp.getD k DPEntry.init)) ∧
  (∀ k, m < k → dp.getD k DPEntry.init = DPEntry.init)

theorem getD_set_self' {α : Type} (l : List α) (e d : α) {i : Nat}
    (h : i < l.length) : (l.set i e).getD i d = e := by
  simp [List.getD, List.getElem?_set_self, h]

theorem getD_set_ne' {α : Type} (l : List α) (e d : α) {i k : Nat}
    (h : i ≠ k) : (l.set i e).getD k d = l.getD k d := by
  simp [List.getD, List.getElem?_set_ne h]

theorem SegJoin_append (a b : List (Token × Bool)) :
    SegJoin (a ++ b) = SegJoin a ++ SegJoin b := by
  simp [SegJoin]

theorem take_append_slice (text : Token) {j i : Nat} (h : j ≤ i) :
    text.take j ++ sliceStr text j i = text.take i := by
  unfold sliceStr
  rw [show i = j + (i - j) by omega, List.take_add]
  congr 2
  omega

theorem resolveRun_join {fallback : Token → List Token}
    (hFB : ∀ s, (fallback s).flatten = s) (text : Token) {e : DPEntry}
    {j : Nat} (he : EntryInv text j e) :
    SegJoin (resolveRun fallback text e j) = text.take j := by
  unfold resolveRun
  cases hu : e.ustart with
  | none => exact he.1 hu
  | some s =>
    obtain ⟨hs, hj⟩ := he.2 s hu
    rw [SegJoin_append, hj]
    have : SegJoin ((fallback (sliceStr text s j)).map (fun w => (w, false)))
        = sliceStr text s j := by
      simp only [SegJoin, List.map_map]
      rw [show (Prod.fst ∘ fun w : Token => (w, false)) = id by rfl,
        List.map_id]
      exact hFB _
    rw [this]
    exact take_append_slice text hs

theorem innerStep_inv {known : Token → Bool} {fallback : Token → List Token}
    (hFB : ∀ s, (fallback s).flatten = s) {text : Token} {dp : List DPEntry}
    {i : Nat} (hdp : ∀ j, j < i → EntryInv text j (dp.getD j DPEntry.init))
    {cur : DPEntry} (hcur : InnerInv text i cur) {j : Nat} (hj : j < i) :
    InnerInv text i (innerStep known fallback text dp i cur j) := by
  simp only [innerStep]
  split
  case isFalse => exact hcur
  case isTrue =>
    split
    case isFalse => exact hcur
    case isTrue =>
      right
      refine ⟨rfl, ?_⟩
      rw [SegJoin_append, resolveRun_join hFB text (hdp j hj)]
      show text.take j ++ (sliceStr text j i ++ []) = text.take i
      rw [List.append_nil]
      exact take_append_slice text (Nat.le_of_lt hj)

theorem innerFold_inv {known : Token → Bool} {fallback : Token → List Token}
    (hFB : ∀ s, (fallback s).flatten = s) {text : Token} {dp : List DPEntry}
    {i : Nat} (hdp : ∀ j, j < i → EntryInv text j (dp.getD j DPEntry.init))
    (l : List Nat) (hl : ∀ j ∈ l, j < i) {cur : DPEntry}
    (hcur : InnerInv text i cur) :
    InnerInv text i (l.foldl (innerStep known fallback text dp i) cur) := by
  induction l generalizing cur with
  | nil => exact hcur
  | cons j js ih =>
    rw [List.foldl_cons]
    exact ih (fun j' hj' => hl j' (List.mem_cons_of_mem _ hj'))
      (innerStep_inv hFB hdp hcur (hl j (List.mem_cons_self _ _)))

theorem outerStep_inv (known : Token → Bool) (fallback : Token → List Token)
    (hFB : ∀ s, (fallback s).flatten = s) {text : Token} {dp : List DPEntry}
    {m : Nat} (hm : m + 1 ≤ text.length) (h : TableInv text dp m) :
    TableInv text (outerStep known fallback text dp (m + 1)) (m + 1) := by
  obtain ⟨hlen, hEnt, hInit⟩ := h
  have hdp : ∀ j, j < m + 1 → EntryInv text j (dp.getD j DPEntry.init) :=
    fun j hj => hEnt j (by omega)
  have hcand : InnerInv text (m + 1)
      ((List.range' ((m + 1) - MAX_WORD_LENGTH)
          ((m + 1) - ((m + 1) - MAX_WORD_LENGTH))).foldl
        (innerStep known fallback text dp (m + 1)) (dp.getD (m + 1) DPEntry.init)) := by
    apply innerFold_inv hFB hdp
    · intro j hj
      have := List.mem_range'_1.mp hj
      omega
    · left
      rw [hInit (m + 1) (by omega)]
      rfl
  simp only [outerStep]
  refine ⟨by simp [hlen], ?_, ?_⟩
  · intro k hk
    rcases Nat.lt_or_ge k (m + 1) with hklt | hkge
    · rw [getD_set_ne' dp _ _ (by omega)]
      exact hEnt k (by omega)
    · have hkeq : k = m + 1 := by omega
      subst hkeq
      rw [getD_set_self' dp _ _ (by omega)]
      split
      case isTrue hsc =>
        -- unreachable after the scan: extend the unexplained run
        have hbplt : argmaxFirst (fun x => (dp.getD x DPEntry.init).score)
            (m + 1) < m + 1 := argmaxFirst_lt _ (by omega)
        have hbpInv := hEnt (argmaxFirst (fun x => (dp.getD x DPEntry.init).score)
          (m + 1)) (by omega)
        constructor
        · intro hnone
          cases hnone
        · intro s hs
          have hs' := Option.some.inj hs
          cases hu : (dp.getD (argmaxFirst (fun x => (dp.getD x DPEntry.init).score)
              (m + 1)) DPEntry.init).ustart with
          | none =>
            rw [hu] at hs'
            simp only [Option.getD_none] at hs'
            subst hs'
            exact ⟨by omega, hbpInv.1 hu⟩
          | some s0 =>
            rw [hu] at hs'
            simp only [Option.getD_some] at hs'
            subst hs'
            obtain ⟨hs0, hj0⟩ := hbpInv.2 s0 hu
            exact ⟨by omega, hj0⟩
      case isFalse hsc =>
        rcases hcand with hnone | ⟨hu, hseg⟩
        · exact absurd hnone hsc
        · exact ⟨fun _ => hseg, fun s hs => by rw [hu] at hs; cases hs⟩
  · intro k hk
    rw [getD_set_ne' dp _ _ (by omega)]
    exact hInit k (by omega)

theorem fold_outer_inv (known : Token → Bool) (fallback : Token → List Token)
    (hFB : ∀ s, (fallback s).flatten = s) {text : Token} :
    ∀ (cnt s : Nat) (dp : List DPEntry), s + cnt ≤ text.length →
      TableInv text dp s →
      TableInv text ((List.range' (s + 1) cnt).foldl
        (outerStep known fallback text) dp) (s + cnt) := by
  intro cnt
  induction cnt with
  | zero => intro s dp _ h; simpa using h
  | succ c ih =>
    intro s dp hb h
    rw [List.range'_succ, List.foldl_cons,
      show s + (c + 1) = (s + 1) + c by omega]
    exact ih (s + 1) _ (by omega) (outerStep_inv known fallback hFB (by omega) h)

/-- C2: for every input text and every known-vocabulary set, provided
the fallback segmenter covers its argument with no gaps, the
concatenation of the DP Segmenter's output tokens, in order, equals the
input text exactly — no characters added, dropped, or reordered, no
gaps and no overlaps; and empty input yields an empty token sequence. -/
theorem c2_full_coverage (known : Token → Bool)
    (fallback : Token → List Token) (text : Token)
    (hFB : ∀ s, (fallback s).flatten = s) :
    (dp_tokenize known fallback text).flatten = text ∧
    dp_tokenize known fallback [] = [] := by
  refine ⟨?_, rfl⟩
  by_cases hemp : text.isEmpty
  · rw [dp_tokenize, if_pos hemp]
    rw [List.isEmpty_iff.mp hemp]
    rfl
  · rw [dp_tokenize, if_neg hemp]
    have base : TableInv text
        (⟨some 0, [], none⟩ :: List.replicate text.length DPEntry.init) 0 := by
      refine ⟨by simp, ?_, ?_⟩
      · intro k hk
        have hk0 : k = 0 := by omega
        subst hk0
        exact ⟨fun _ => rfl, fun s hs => by cases hs⟩
      · intro k hk
        match k, hk with
        | (k' + 1), _ =>
          show (List.replicate text.length DPEntry.init).getD k' DPEntry.init
            = DPEntry.init
          rcases Nat.lt_or_ge k' text.length with h | h
          · simp [List.getD, List.getElem?_replicate, h]
          · rw [List.getD_eq_default]
            simpa
    have hfin := fold_outer_inv known fallback hFB text.length 0 _
      (by omega) base
    simp only [Nat.zero_add] at hfin
    have hEnt := hfin.2.1 text.length (Nat.le_refl _)
    show SegJoin (resolveRun fallback text
      (((List.range' 1 text.length).foldl (outerStep known fallback text)
        (⟨some 0, [], none⟩ :: List.replicate text.length DPEntry.init)).getD
          text.length DPEntry.init) text.length) = text
    rw [resolveRun_join hFB text hEnt]
    exact List.take_length text

/-- C2 witness: a concrete run with a gap-free fallback segmenter. -/
theorem c2_witness :
    (∀ s : Token, ((fun s : Token => [s]) s).flatten = s) ∧
    ((dp_tokenize exampleKnownWords (fun s => [s]) ("中国人民".toList)).flatten
        = "中国人民".toList ∧
      dp_tokenize exampleKnownWords (fun s => [s]) [] = []) :=
  ⟨fun s => by simp,
    c2_full_coverage exampleKnownWords (fun s => [s]) ("中国人民".toList)
      (fun s => by simp)⟩

/-! ### Helper lemmas on the frequency counter -/

theorem contains_iff (l : List Token) (a : Token) : l.contains a = true ↔ a ∈ l :=
  List.contains_iff_exists_mem_beq.trans (by simp)

theorem mem_uniqueKeysGo (seen : List Token) (ws : List Token) (v : Token) :
    v ∈ uniqueKeysGo seen ws ↔ v ∈ ws ∧ v ∉ seen := by
  induction ws generalizing seen with
  | nil => simp [uniqueKeysGo]
  | cons w rest ih =>
    by_cases hw : seen.contains w = true
    · rw [uniqueKeysGo, if_pos hw, ih]
      have hwseen : w ∈ seen := (contains_iff seen w).mp hw
      constructor
      · rintro ⟨h1, h2⟩
        exact ⟨List.mem_cons_of_mem _ h1, h2⟩
      · rintro ⟨h1, h2⟩
        rcases List.mem_cons.mp h1 with h | h
        · subst h; exact absurd hwseen h2
        · exact ⟨h, h2⟩
    · rw [uniqueKeysGo, if_neg hw]
      have hwseen : w ∉ seen := fun hmem => hw ((contains_iff seen w).mpr hmem)
      simp only [List.mem_cons, ih]
      constructor
      · rintro (h | ⟨h1, h2⟩)
        · subst h; exact ⟨Or.inl rfl, hwseen⟩
        · exact ⟨Or.inr h1, fun hc => h2 (Or.inr hc)⟩
      · rintro ⟨h1 | h1, h2⟩
        · exact Or.inl h1
        · rcases eq_or_ne v w with hvw | hvw
          · exact Or.inl hvw
          · refine Or.inr ⟨h1, fun hc => ?_⟩
            rcases hc with hc | hc
            · exact hvw hc
            · exact h2 hc

theorem nodup_uniqueKeysGo (seen : List Token) (ws : List Token) :
    (uniqueKeysGo seen ws).Nodup := by
  induction ws generalizing seen with
  | nil => simp [uniqueKeysGo]
  | cons w rest ih =>
    by_cases hw : seen.contains w = true
    · rw [uniqueKeysGo, if_pos hw]; exact ih seen
    · rw [uniqueKeysGo, if_neg hw]
      refine List.Nodup.cons ?_ (ih (w :: seen))
      intro hmem
      exact ((mem_uniqueKeysGo _ _ _).mp hmem).2 (List.mem_cons_self _ _)

theorem count_add_filter_len (w : Token) (seen rest : List Token)
    (hw : seen.contains w = false) :
    rest.count w + (rest.filter (fun v => !(w :: seen).contains v)).length
      = (rest.filter (fun v => !seen.contains v)).length := by
  induction rest with
  | nil => simp
  | cons v vs ih =>
    rcases eq_or_ne v w with hvw | hvw
    · subst hvw
      have h1 : (v :: seen).contains v = true := by
        rw [contains_iff]; exact List.mem_cons_self _ _
      simp only [List.count_cons_self, List.filter_cons, h1, hw,
        Bool.not_true, Bool.not_false, Bool.false_eq_true, if_false, if_true,
        List.length_cons]
      omega
    · have h1 : (w :: seen).contains v = seen.contains v := by
        cases hs : seen.contains v with
        | true =>
          rw [contains_iff]
          exact List.mem_cons_of_mem _ ((contains_iff _ _).mp hs)
        | false =>
          rw [← Bool.not_eq_true]
          intro hc
          rcases List.mem_cons.mp ((contains_iff _ _).mp hc) with h | h
          · exact hvw h
          · rw [(contains_iff _ _).mpr h] at hs; cases hs
      rw [List.count_cons_of_ne (Ne.symm hvw), List.filter_cons,
        List.filter_cons, h1]
      cases hs : seen.contains v with
      | true => simpa using ih
      | false =>
        simp only [Bool.not_false, if_true, List.length_cons]
        omega

theorem sum_counts_uniqueKeysGo (seen ws : List Token) :
    ((uniqueKeysGo seen ws).map (fun w => ws.count w)).sum
      = (ws.filter (fun v => !seen.contains v)).length := by
  induction ws generalizing seen with
  | nil => simp [uniqueKeysGo]
  | cons w rest ih =>
    by_cases hw : seen.contains w = true
    · rw [uniqueKeysGo, if_pos hw]
      have hcong : ∀ v ∈ uniqueKeysGo seen rest,
          (w :: rest).count v = rest.count v := by
        intro v hv
        have hvs := (mem_uniqueKeysGo _ _ _).mp hv
        have hvw : v ≠ w := fun h => hvs.2 (h ▸ (contains_iff _ _).mp hw)
        exact List.count_cons_of_ne hvw rest
      rw [List.map_congr_left hcong, ih, List.filter_cons]
      simp [hw, (contains_iff seen w).mp hw]
    · rw [uniqueKeysGo, if_neg hw]
      have hw' : seen.contains w = false := by
        cases hc : seen.contains w with
        | true => exact absurd hc hw
        | false => rfl
      have hcong : ∀ v ∈ uniqueKeysGo (w :: seen) rest,
          (w :: rest).count v = rest.count v := by
        intro v hv
        have hvs := (mem_uniqueKeysGo _ _ _).mp hv
        have hvw : v ≠ w := fun h => hvs.2 (h ▸ List.mem_cons_self _ _)
        exact List.count_cons_of_ne hvw rest
      rw [List.map_cons, List.sum_cons, List.map_congr_left hcong, ih,
        List.count_cons_self, List.filter_cons]
      have := count_add_filter_len w seen rest hw'
      simp only [hw', Bool.not_false, if_true, List.length_cons]
      omega

theorem mem_uniqueKeys (ws : List Token) (v : Token) :
    v ∈ uniqueKeys ws ↔ v ∈ ws := by
  rw [uniqueKeys, mem_uniqueKeysGo]
  simp

theorem nodup_uniqueKeys (ws : List Token) : (uniqueKeys ws).Nodup :=
  nodup_uniqueKeysGo [] ws

theorem sum_counts_uniqueKeys (ws : List Token) :
    ((uniqueKeys ws).map (fun w => ws.count w)).sum = ws.length := by
  rw [uniqueKeys, sum_counts_uniqueKeysGo]
  congr 1
  exact List.filter_eq_self.mpr (fun a _ => rfl)

theorem counterItems_keys (ws : List Token) :
    (counterItems ws).map Prod.fst = uniqueKeys ws := by
  rw [counterItems, List.map_map]
  exact List.map_id _

theorem mem_counterItems (ws : List Token) (w : Token) (c : Nat) :
    (w, c) ∈ counterItems ws ↔ w ∈ ws ∧ c = ws.count w := by
  rw [counterItems]
  simp only [List.mem_map, Prod.mk.injEq]
  constructor
  · rintro ⟨v, hv, rfl, rfl⟩
    exact ⟨(mem_uniqueKeys ws v).mp hv, rfl⟩
  · rintro ⟨h1, rfl⟩
    exact ⟨w, (mem_uniqueKeys ws w).mpr h1, rfl, rfl⟩

theorem counterItems_snd_sum (ws : List Token) :
    ((counterItems ws).map Prod.snd).sum = ws.length := by
  rw [counterItems, List.map_map]
  exact sum_counts_uniqueKeys ws

/-! ### Helper lemmas on the scorer's fold and the stable sort -/

theorem stats_fold (k : Token → Bool) (l : List (Token × Nat))
    (kc : Nat) (uw : List (Token × Nat)) :
    l.foldl
      (fun acc p =>
        if is_word_known p.1 k then (acc.1 + p.2, acc.2)
        else (acc.1, acc.2 ++ [p])) (kc, uw)
    = (kc + ((l.filter (fun p => is_word_known p.1 k)).map Prod.snd).sum,
       uw ++ l.filter (fun p => !is_word_known p.1 k)) := by
  induction l generalizing kc uw with
  | nil => simp
  | cons p ps ih =>
    by_cases h : is_word_known p.1 k = true <;>
      simp [h, ih, List.filter_cons, Nat.add_assoc]

theorem insertDesc_perm (p : Token × Nat) (l : List (Token × Nat)) :
    List.Perm (insertDesc p l) (p :: l) := by
  induction l with
  | nil => exact List.Perm.refl _
  | cons q qs ih =>
    rw [insertDesc]
    split
    · exact List.Perm.refl _
    · exact (List.Perm.cons q ih).trans (List.Perm.swap p q qs)

theorem mem_insertDesc (p b : Token × Nat) (l : List (Token × Nat)) :
    b ∈ insertDesc p l ↔ b = p ∨ b ∈ l := by
  rw [(insertDesc_perm p l).mem_iff]
  simp

theorem insertDesc_pairwise (p : Token × Nat) {l : List (Token × Nat)}
    (h : List.Pairwise (fun a b => b.2 ≤ a.2) l) :
    List.Pairwise (fun a b => b.2 ≤ a.2) (insertDesc p l) := by
  induction l with
  | nil => simp [insertDesc]
  | cons q qs ih =>
    rw [List.pairwise_cons] at h
    rw [insertDesc]
    split
    case isTrue hle =>
      rw [List.pairwise_cons]
      refine ⟨?_, List.pairwise_cons.mpr h⟩
      intro b hb
      rcases List.mem_cons.mp hb with hb | hb
      · subst hb; exact hle
      · exact Nat.le_trans (h.1 b hb) hle
    case isFalse hgt =>
      rw [List.pairwise_cons]
      refine ⟨?_, ih h.2⟩
      intro b hb
      rcases (mem_insertDesc p b qs).mp hb with hb | hb
      · subst hb; omega
      · exact h.1 b hb

theorem sortDesc_perm (l : List (Token × Nat)) :
    List.Perm (sortDescByCount l) l := by
  induction l with
  | nil => exact List.Perm.refl _
  | cons p ps ih =>
    exact (insertDesc_perm p (sortDescByCount ps)).trans (List.Perm.cons p ih)

theorem sortDesc_pairwise (l : List (Token × Nat)) :
    List.Pairwise (fun a b => b.2 ≤ a.2) (sortDescByCount l) := by
  induction l with
  | nil => simp [sortDescByCount]
  | cons p ps ih => exact insertDesc_pairwise p ih

theorem insertDesc_filter (n : Nat) (p : Token × Nat) (l : List (Token × Nat)) :
    (insertDesc p l).filter (fun q => decide (q.2 = n))
      = if p.2 = n then p :: l.filter (fun q => decide (q.2 = n))
        else l.filter (fun q => decide (q.2 = n)) := by
  induction l with
  | nil =>
    rw [insertDesc]
    by_cases h : p.2 = n <;> simp [h]
  | cons q qs ih =>
    rw [insertDesc]
    split
    case isTrue hle =>
      by_cases hp : p.2 = n <;> simp [hp, List.filter_cons]
    case isFalse hgt =>
      rw [List.filter_cons, List.filter_cons]
      by_cases hp : p.2 = n
      · have hq : ¬(q.2 = n) := by omega
        simp [hp, hq, ih]
      · simp [hp, ih]

theorem sortDesc_filter (n : Nat) (l : List (Token × Nat)) :
    (sortDescByCount l).filter (fun q => decide (q.2 = n))
      = l.filter (fun q => decide (q.2 = n)) := by
  induction l with
  | nil => rfl
  | cons p ps ih =>
    show (insertDesc p (sortDescByCount ps)).filter _ = _
    rw [insertDesc_filter, List.filter_cons]
    by_cases hp : p.2 = n <;> simp [hp, ih]

theorem filter_map_pair (l : List Token) (p : Token × Nat → Bool)
    (f : Token → Token × Nat) :
    (l.map f).filter p = (l.filter (fun x => p (f x))).map f := by
  induction l with
  | nil => rfl
  | cons x xs ih =>
    by_cases h : p (f x) = true <;> simp [h, List.filter_cons, ih]

theorem sum_map_filter_split (l : List (Token × Nat)) (p : Token × Nat → Bool) :
    ((l.filter p).map Prod.snd).sum + ((l.filter (fun x => !p x)).map Prod.snd).sum
      = (l.map Prod.snd).sum := by
  induction l with
  | nil => rfl
  | cons x xs ih =>
    by_cases h : p x = true <;>
      simp [h, List.filter_cons] <;> omega

theorem length_filter_split {α : Type} (l : List α) (p : α → Bool) :
    (l.filter p).length + (l.filter (fun x => !p x)).length = l.length := by
  induction l with
  | nil => rfl
  | cons x xs ih =>
    by_cases h : p x = true <;> simp [h, List.filter_cons] <;> omega

/-- Characterization of `calculate_comprehension_stats` in terms of the
counter, the classification and the stable sort. -/
theorem stats_eq (ws : List Token) (k : Token → Bool) :
    calculate_comprehension_stats ws k
      = (ws.length, (counterItems ws).length,
         (((counterItems ws).filter (fun p => is_word_known p.1 k)).map Prod.snd).sum,
         sortDescByCount ((counterItems ws).filter (fun p => !is_word_known p.1 k))) := by
  simp only [calculate_comprehension_stats]
  rw [stats_fold]
  simp

/-! ### Claim C8 (unknown-token ranking) -/

/-- C8: the unknown-token list contains exactly the distinct tokens for
which the classification fails, each paired with its frequency in the
filtered sequence (membership characterization plus no duplicate
tokens); it is sorted by frequency descending; and for each frequency
value, its entries appear exactly in the first-occurrence order of the
filtered sequence (stability of the sort). -/
theorem c8_unknown_ranking (ws : List Token) (k : Token → Bool) :
    (∀ w c, (w, c) ∈ (calculate_comprehension_stats ws k).2.2.2 ↔
      (w ∈ ws ∧ is_word_known w k = false ∧ c = ws.count w)) ∧
    ((calculate_comprehension_stats ws k).2.2.2.map Prod.fst).Nodup ∧
    List.Pairwise (fun a b => b.2 ≤ a.2)
      (calculate_comprehension_stats ws k).2.2.2 ∧
    (∀ n, (calculate_comprehension_stats ws k).2.2.2.filter
        (fun p => decide (p.2 = n))
      = (((uniqueKeys ws).filter (fun w => !is_word_known w k)).map
          (fun w => (w, ws.count w))).filter (fun p => decide (p.2 = n))) := by
  simp only [stats_eq]
  refine ⟨?_, ?_, sortDesc_pairwise _, ?_⟩
  · intro w c
    rw [(sortDesc_perm _).mem_iff, List.mem_filter, mem_counterItems]
    constructor
    · rintro ⟨⟨h1, h2⟩, h3⟩
      exact ⟨h1, by simpa using h3, h2⟩
    · rintro ⟨h1, h2, h3⟩
      exact ⟨⟨h1, h3⟩, by simp [h2]⟩
  · rw [((sortDesc_perm _).map Prod.fst).nodup_iff]
    apply List.Nodup.sublist (List.Sublist.map Prod.fst (List.filter_sublist _))
    rw [counterItems_keys]
    exact nodup_uniqueKeys ws
  · intro n
    rw [sortDesc_filter]
    congr 1
    rw [counterItems, filter_map_pair]

/-! ### Claim C10 (conservation of the scorer's outputs) -/

/-- C10: the known-token count plus the sum of the counts in the
unknown-token list equals the total token count, and the number of
distinct known tokens plus the length of the unknown-token list equals
the distinct token count: every distinct token is classified exactly
once. -/
theorem c10_conservation (ws : List Token) (k : Token → Bool) :
    (calculate_comprehension_stats ws k).2.2.1
        + (((calculate_comprehension_stats ws k).2.2.2).map Prod.snd).sum
      = (calculate_comprehension_stats ws k).1 ∧
    ((uniqueKeys ws).filter (fun w => is_word_known w k)).length
        + ((calculate_comprehension_stats ws k).2.2.2).length
      = (calculate_comprehension_stats ws k).2.1 := by
  simp only [stats_eq]
  constructor
  · rw [((sortDesc_perm _).map Prod.snd).sum_eq,
      sum_map_filter_split (counterItems ws) (fun p => is_word_known p.1 k),
      counterItems_snd_sum]
  · rw [(sortDesc_perm _).length_eq, counterItems, filter_map_pair,
      List.length_map, List.length_map]
    exact length_filter_split (uniqueKeys ws) (fun w => is_word_known w k)

end ChineseChecker
